import Mathlib

/-
Shallow embedding of the retrieval-and-indexing core of the repository:
the SQLite-backed deduplicating document store (src/sql/db.py), the
chunker and indexer (src/vector_store/indexer.py), and the cosine/MMR
retriever (src/retriever/search.py).

Modelling conventions:
* Python strings are `List Char` (document text) or `String` (opaque fields).
* Python floats are real numbers (exact arithmetic).
* Python non-negative ints used as sizes are `Nat`.
* A Python `while` loop whose progress is not syntactically evident is
  modelled with explicit fuel; a `none` result for every fuel models a
  diverging loop.
* A Python function that can raise is modelled with `Except`/`Option`.
-/

namespace NewsRag

/-! ### Chunker: `simple_chunk` from src/vector_store/indexer.py -/

/-- Whitespace test used by Python `str.strip()` (ASCII whitespace). -/
def pySpace (c : Char) : Bool :=
  c == ' ' || c == '\t' || c == '\n' || c == '\r' || c == '\x0b' || c == '\x0c'

/-- Python `s.strip()`: drop leading and trailing whitespace. -/
def pyStrip (s : List Char) : List Char :=
  ((s.dropWhile pySpace).reverse.dropWhile pySpace).reverse

/-- Python `text.split("\n")`: split on every newline, keeping empty parts
(so `"".split("\n") == [""]`). -/
def splitNl : List Char → List (List Char)
  | [] => [[]]
  | c :: rest =>
    if c = '\n' then [] :: splitNl rest
    else
      match splitNl rest with
      | [] => [[c]]
      | p :: ps => (c :: p) :: ps

/-- `[p.strip() for p in text.split("\n") if p.strip()]` -/
def parasOf (text : List Char) : List (List Char) :=
  ((splitNl text).map pyStrip).filter (fun p => !p.isEmpty)

/-- One iteration of the paragraph-accumulation loop of `simple_chunk`
(the `for p in paras` body), acting on the state `(chunks, buf)`.
`overlap` is the source's `overlap` argument; the claims under study only
concern `overlap >= 0`, so it is modelled as `Nat`. -/
def flushStep (maxC overlap : Nat) (st : List (List Char) × List Char) (p : List Char) :
    List (List Char) × List Char :=
  let (chunks, buf) := st
  if buf.isEmpty then (chunks, p)
  else if buf.length + 1 + p.length ≤ maxC then (chunks, buf ++ '\n' :: p)
  else
    -- keep = buf[-overlap:] if overlap > 0 and len(buf) > overlap else ""
    let keep := if 0 < overlap ∧ overlap < buf.length then buf.drop (buf.length - overlap) else []
    (chunks ++ [buf], pyStrip (keep ++ '\n' :: p))

/-- Phase 1 of `simple_chunk`: greedy paragraph accumulation, flushing the
final non-empty buffer. -/
def stage1 (paras : List (List Char)) (maxC overlap : Nat) : List (List Char) :=
  let st := paras.foldl (flushStep maxC overlap) ([], [])
  if st.2.isEmpty then st.1 else st.1 ++ [st.2]

/-- The hard-split `while start < len(c)` loop of `simple_chunk`, with fuel.
In the source `step = max_chars - overlap` (a Python int): for
`overlap > max_chars` the Python step is negative and the loop diverges
exactly as it does for step 0, so the step is modelled as the truncated
subtraction and divergence as `none` for every fuel.
Each window is `c[start:min(start+max_chars, len(c))]`. -/
def hardSplitLoop (c : List Char) (maxC step : Nat) : Nat → Nat → Option (List (List Char))
  | 0, _ => none
  | fuel + 1, start =>
    if start < c.length then
      match hardSplitLoop c maxC step fuel (start + step) with
      | none => none
      | some ps => some (((c.drop start).take maxC) :: ps)
    else some []

/-- Phase 2 of `simple_chunk`: any chunk longer than `max_chars` is
hard-split; fuel `c.length + 1` is provably sufficient whenever the step
is positive. -/
def stage2 (maxC step : Nat) : List (List Char) → Option (List (List Char))
  | [] => some []
  | c :: rest =>
    if c.length ≤ maxC then (stage2 maxC step rest).map (c :: ·)
    else
      match hardSplitLoop c maxC step (c.length + 1) 0, stage2 maxC step rest with
      | some ps, some fs => some (ps ++ fs)
      | _, _ => none

/-- `simple_chunk(text, max_chars, overlap)` from src/vector_store/indexer.py.
Returns `none` iff the source function diverges (hard-split with
non-positive step). -/
def simple_chunk (text : List Char) (maxC : Nat := 1200) (overlap : Nat := 120) :
    Option (List (List Char)) :=
  if text.isEmpty then some []
  else stage2 maxC (maxC - overlap) (stage1 (parasOf text) maxC overlap)

/-- The reconstruction described by the spec's chunk-coverage property:
keep the first chunk whole and strip the configured overlap-length prefix
from every later chunk, then concatenate. -/
def overlapReconstruct (overlap : Nat) : List (List Char) → List Char
  | [] => []
  | c :: rest => c ++ (rest.map (List.drop overlap)).flatten

/-- Characters of a text with the paragraph-join newlines erased. -/
def nlf (l : List Char) : List Char := l.filter (fun ch => ch != '\n')

/-! ### Chunker lemmas -/

lemma hardSplitLoop_isSome (c : List Char) (maxC step : Nat) (hstep : 1 ≤ step) :
    ∀ fuel start : Nat, c.length - start < fuel →
      (hardSplitLoop c maxC step fuel start).isSome := by
  intro fuel
  induction fuel with
  | zero => intro start h; omega
  | succ n ih =>
    intro start h
    rw [hardSplitLoop]
    by_cases hs : start < c.length
    · have hrec := ih (start + step) (by omega)
      simp only [hs, if_true]
      cases hrec' : hardSplitLoop c maxC step n (start + step) with
      | none => rw [hrec'] at hrec; simp at hrec
      | some ps => simp
    · simp [hs]

lemma hardSplitLoop_bound (c : List Char) (maxC step : Nat) :
    ∀ (fuel start : Nat) (ps : List (List Char)),
      hardSplitLoop c maxC step fuel start = some ps → ∀ p ∈ ps, p.length ≤ maxC := by
  intro fuel
  induction fuel with
  | zero => intro start ps h; simp [hardSplitLoop] at h
  | succ n ih =>
    intro start ps h
    rw [hardSplitLoop] at h
    by_cases hs : start < c.length
    · simp only [hs, if_true] at h
      cases hrec : hardSplitLoop c maxC step n (start + step) with
      | none => rw [hrec] at h; exact absurd h (by simp)
      | some qs =>
        rw [hrec] at h
        have hps : ((c.drop start).take maxC) :: qs = ps := by simpa using h
        subst hps
        intro p hp
        rcases List.mem_cons.mp hp with rfl | hp
        · rw [List.length_take]; omega
        · exact ih (start + step) qs hrec p hp
    · rw [if_neg hs] at h
      have : ps = [] := by simpa using h.symm
      subst this
      intro p hp; simp at hp

lemma stage2_isSome (maxC step : Nat) (hstep : 1 ≤ step) :
    ∀ l : List (List Char), (stage2 maxC step l).isSome := by
  intro l
  induction l with
  | nil => simp [stage2]
  | cons c rest ih =>
    rw [stage2]
    by_cases hc : c.length ≤ maxC
    · simp only [hc, if_true]
      cases h : stage2 maxC step rest with
      | none => rw [h] at ih; simp at ih
      | some fs => simp
    · simp only [hc, if_false]
      have h1 := hardSplitLoop_isSome c maxC step hstep (c.length + 1) 0 (by omega)
      cases h2 : hardSplitLoop c maxC step (c.length + 1) 0 with
      | none => rw [h2] at h1; simp at h1
      | some ps =>
        cases h3 : stage2 maxC step rest with
        | none => rw [h3] at ih; simp at ih
        | some fs => simp

lemma stage2_bound (maxC step : Nat) :
    ∀ (l : List (List Char)) (out : List (List Char)),
      stage2 maxC step l = some out → ∀ c ∈ out, c.length ≤ maxC := by
  intro l
  induction l with
  | nil =>
    intro out h
    have : out = [] := by simpa [stage2] using h.symm
    subst this; intro c hc; simp at hc
  | cons c rest ih =>
    intro out h
    rw [stage2] at h
    by_cases hc : c.length ≤ maxC
    · simp only [hc, if_true] at h
      cases h3 : stage2 maxC step rest with
      | none => rw [h3] at h; simp at h
      | some fs =>
        rw [h3] at h
        have hout : c :: fs = out := by simpa using h
        subst hout
        intro d hd
        rcases List.mem_cons.mp hd with rfl | hd
        · exact hc
        · exact ih fs h3 d hd
    · rw [if_neg hc] at h
      cases h2 : hardSplitLoop c maxC step (c.length + 1) 0 with
      | none => rw [h2] at h; simp at h
      | some ps =>
        cases h3 : stage2 maxC step rest with
        | none => rw [h2, h3] at h; simp at h
        | some fs =>
          rw [h2, h3] at h
          have hout : ps ++ fs = out := by simpa using h
          subst hout
          intro d hd
          rcases List.mem_append.mp hd with hd | hd
          · exact hardSplitLoop_bound c maxC step _ 0 ps h2 d hd
          · exact ih fs h3 d hd

/-- C2: for every input text and every configuration with
`0 <= overlap < max_chars`, every chunk returned by `simple_chunk` has
length at most `max_chars`; in particular, for `overlap = 0` and
`max_chars = 10`, the input of 25 repeated 'a' characters yields exactly
3 chunks of lengths 10, 10 and 5. -/
theorem simple_chunk_bound (text : List Char) (maxC overlap : Nat) (h : overlap < maxC) :
    (∃ cs, simple_chunk text maxC overlap = some cs ∧ ∀ c ∈ cs, c.length ≤ maxC) ∧
    simple_chunk (List.replicate 25 'a') 10 0 =
      some [List.replicate 10 'a', List.replicate 10 'a', List.replicate 5 'a'] := by
  constructor
  · by_cases ht : text.isEmpty
    · exact ⟨[], by simp [simple_chunk, ht], by simp⟩
    · have hstep : 1 ≤ maxC - overlap := by omega
      have h1 := stage2_isSome maxC (maxC - overlap) hstep (stage1 (parasOf text) maxC overlap)
      cases h2 : stage2 maxC (maxC - overlap) (stage1 (parasOf text) maxC overlap) with
      | none => rw [h2] at h1; simp at h1
      | some cs =>
        refine ⟨cs, by simp [simple_chunk, ht, h2], ?_⟩
        exact stage2_bound maxC (maxC - overlap) _ cs h2
  · decide

/-- Witness for `simple_chunk_bound` at `text = "xyz"`, `maxC = 10`,
`overlap = 0`. -/
theorem simple_chunk_bound_witness :
    (0 : Nat) < 10 ∧
    ((∃ cs, simple_chunk "xyz".data 10 0 = some cs ∧ ∀ c ∈ cs, c.length ≤ 10) ∧
      simple_chunk (List.replicate 25 'a') 10 0 =
        some [List.replicate 10 'a', List.replicate 10 'a', List.replicate 5 'a']) :=
  ⟨by decide, simple_chunk_bound "xyz".data 10 0 (by decide)⟩

lemma hardSplitLoop_zero_step (c : List Char) (maxC : Nat) (hc : 0 < c.length) :
    ∀ fuel, hardSplitLoop c maxC 0 fuel 0 = none := by
  intro fuel
  induction fuel with
  | zero => rfl
  | succ n ih => rw [hardSplitLoop]; simp [hc, ih]

/-- C5 (code bug): the source applies neither clamping nor rejection to
`overlap >= max_chars`; the hard-split loop's advance is
`max_chars - overlap = 0` there, so the window start never moves and the
loop never terminates on any chunk longer than `max_chars`.  At
`text = 'a' * 25`, `max_chars = 10`, `overlap = 10` the chunker diverges:
the loop body yields `none` for every fuel. -/
theorem simple_chunk_overlap_eq_max_diverges :
    simple_chunk (List.replicate 25 'a') 10 10 = none ∧
    ∀ fuel, hardSplitLoop (List.replicate 25 'a') 10 0 fuel 0 = none := by
  refine ⟨by decide, hardSplitLoop_zero_step _ 10 (by decide)⟩

lemma dropWhile_dropWhile (p : Char → Bool) (l : List Char) :
    (l.dropWhile p).dropWhile p = l.dropWhile p := by
  cases h : l.dropWhile p with
  | nil => rfl
  | cons c cs =>
    have hc : p c = false := by
      have h2 := List.head?_dropWhile_not p l
      rw [h] at h2
      simpa using h2
    simp [List.dropWhile_cons, hc]

lemma pyStrip_idem (s : List Char) : pyStrip (pyStrip s) = pyStrip s := by
  have hfix : (pyStrip s).dropWhile pySpace = pyStrip s := by
    cases hbe : pyStrip s with
    | nil => simp
    | cons x xs =>
      have hx : pySpace x = false := by
        have hhead : ((s.dropWhile pySpace).reverse.dropWhile pySpace).reverse.head? = some x := by
          rw [show ((s.dropWhile pySpace).reverse.dropWhile pySpace).reverse = pyStrip s from rfl,
            hbe]
          rfl
        rw [List.head?_reverse] at hhead
        obtain ⟨t, htb⟩ := List.dropWhile_suffix (l := (s.dropWhile pySpace).reverse) pySpace
        have h2 : (s.dropWhile pySpace).reverse.getLast? = some x := by
          rw [← htb, List.getLast?_append, hhead]
          rfl
        rw [List.getLast?_reverse] at h2
        have h4 := List.head?_dropWhile_not pySpace s
        rw [h2] at h4
        simpa using h4
      simp [List.dropWhile_cons, hx]
  show ((((pyStrip s).dropWhile pySpace).reverse.dropWhile pySpace)).reverse = pyStrip s
  rw [hfix]
  show (((pyStrip s).reverse).dropWhile pySpace).reverse = pyStrip s
  rw [show (pyStrip s).reverse = (s.dropWhile pySpace).reverse.dropWhile pySpace by
    rw [show pyStrip s = ((s.dropWhile pySpace).reverse.dropWhile pySpace).reverse from rfl,
      List.reverse_reverse]]
  rw [dropWhile_dropWhile]
  rfl

lemma pyStrip_cons_nl (p : List Char) : pyStrip ('\n' :: p) = pyStrip p := by
  unfold pyStrip
  rw [List.dropWhile_cons_of_pos (by rfl)]

lemma pyStrip_subset (s : List Char) : pyStrip s ⊆ s := by
  intro x hx
  unfold pyStrip at hx
  rw [List.mem_reverse] at hx
  have h1 := List.dropWhile_subset (l := (s.dropWhile pySpace).reverse) pySpace hx
  rw [List.mem_reverse] at h1
  exact List.dropWhile_subset pySpace h1

lemma splitNl_no_nl (l : List Char) : ∀ q ∈ splitNl l, '\n' ∉ q := by
  induction l with
  | nil => intro q hq; rw [splitNl] at hq; simp at hq; simp [hq]
  | cons c rest ih =>
    intro q hq
    rw [splitNl] at hq
    by_cases hc : c = '\n'
    · rw [if_pos hc] at hq
      rcases List.mem_cons.mp hq with rfl | hq
      · simp
      · exact ih q hq
    · rw [if_neg hc] at hq
      cases hsp : splitNl rest with
      | nil =>
        rw [hsp] at hq; simp at hq; subst hq; simp
        exact fun h => hc h.symm
      | cons p ps =>
        rw [hsp] at hq
        rcases List.mem_cons.mp hq with rfl | hq
        · intro hmem
          rcases List.mem_cons.mp hmem with h | h
          · exact hc h.symm
          · exact ih p (by rw [hsp]; exact List.mem_cons_self p ps) h
        · exact ih q (by rw [hsp]; exact List.mem_cons_of_mem p hq)

lemma splitNl_of_no_nl (l : List Char) (h : '\n' ∉ l) : splitNl l = [l] := by
  induction l with
  | nil => rfl
  | cons c rest ih =>
    have hc : c ≠ '\n' := fun hcc => h (hcc ▸ List.mem_cons_self c rest)
    have hrest : '\n' ∉ rest := fun hm => h (List.mem_cons_of_mem c hm)
    rw [splitNl, if_neg hc, ih hrest]

lemma parasOf_mem (text : List Char) :
    ∀ p ∈ parasOf text, pyStrip p = p ∧ p ≠ [] ∧ '\n' ∉ p := by
  intro p hp
  unfold parasOf at hp
  rw [List.mem_filter] at hp
  obtain ⟨hmem, hne⟩ := hp
  rw [List.mem_map] at hmem
  obtain ⟨q, hq, rfl⟩ := hmem
  refine ⟨pyStrip_idem q, ?_, ?_⟩
  · intro habs; rw [habs] at hne; simp at hne
  · intro habs
    exact splitNl_no_nl text q hq (pyStrip_subset q habs)

lemma nlf_append (a b : List Char) : nlf (a ++ b) = nlf a ++ nlf b := by
  simp [nlf]

lemma nlf_of_no_nl (p : List Char) (h : '\n' ∉ p) : nlf p = p := by
  rw [nlf, List.filter_eq_self]
  intro a ha
  have : a ≠ '\n' := fun he => h (he ▸ ha)
  simpa using this

lemma nlf_cons_nl (p : List Char) : nlf ('\n' :: p) = nlf p := by
  simp [nlf]

lemma stage1_fold_zero (maxC : Nat) :
    ∀ (paras chunks : List (List Char)) (buf : List Char),
      (∀ p ∈ paras, pyStrip p = p ∧ p ≠ [] ∧ '\n' ∉ p) →
      nlf ((paras.foldl (flushStep maxC 0) (chunks, buf)).1.flatten ++
           (paras.foldl (flushStep maxC 0) (chunks, buf)).2) =
        nlf (chunks.flatten ++ buf) ++ paras.flatten := by
  intro paras
  induction paras with
  | nil => intro chunks buf _; simp
  | cons p ps ih =>
    intro chunks buf hpar
    have hp := hpar p (List.mem_cons_self p ps)
    have hps : ∀ q ∈ ps, pyStrip q = q ∧ q ≠ [] ∧ '\n' ∉ q :=
      fun q hq => hpar q (List.mem_cons_of_mem p hq)
    rw [List.foldl_cons]
    by_cases hb : buf.isEmpty
    · have hbuf : buf = [] := List.isEmpty_iff.mp hb
      rw [show flushStep maxC 0 (chunks, buf) p = (chunks, p) by simp [flushStep, hb]]
      rw [ih chunks p hps, hbuf]
      simp [nlf_append, nlf_of_no_nl p hp.2.2]
    · by_cases hlen : buf.length + 1 + p.length ≤ maxC
      · rw [show flushStep maxC 0 (chunks, buf) p = (chunks, buf ++ '\n' :: p) by
          simp [flushStep, hb, hlen]]
        rw [ih chunks (buf ++ '\n' :: p) hps]
        simp [nlf_append, nlf_cons_nl, nlf_of_no_nl p hp.2.2]
      · rw [show flushStep maxC 0 (chunks, buf) p = (chunks ++ [buf], p) by
          simp [flushStep, hb, hlen, pyStrip_cons_nl, hp.1]]
        rw [ih (chunks ++ [buf]) p hps]
        simp [nlf_append, nlf_of_no_nl p hp.2.2]

lemma stage1_zero_flatten (maxC : Nat) (paras : List (List Char))
    (hpar : ∀ p ∈ paras, pyStrip p = p ∧ p ≠ [] ∧ '\n' ∉ p) :
    nlf (stage1 paras maxC 0).flatten = paras.flatten := by
  have h := stage1_fold_zero maxC paras [] [] hpar
  rw [stage1]
  by_cases hb : (paras.foldl (flushStep maxC 0) ([], [])).2.isEmpty
  · rw [if_pos hb]
    have hbuf := List.isEmpty_iff.mp hb
    rw [hbuf] at h
    simpa using h
  · rw [if_neg hb]
    simpa [nlf_append] using h

lemma hardSplitLoop_flatten_maxC (c : List Char) (maxC : Nat) :
    ∀ (fuel start : Nat) (ps : List (List Char)),
      hardSplitLoop c maxC maxC fuel start = some ps → ps.flatten = c.drop start := by
  intro fuel
  induction fuel with
  | zero => intro start ps h; simp [hardSplitLoop] at h
  | succ n ih =>
    intro start ps h
    rw [hardSplitLoop] at h
    by_cases hs : start < c.length
    · rw [if_pos hs] at h
      cases hrec : hardSplitLoop c maxC maxC n (start + maxC) with
      | none => rw [hrec] at h; simp at h
      | some qs =>
        rw [hrec] at h
        have hqs : ((c.drop start).take maxC) :: qs = ps := by simpa using h
        subst hqs
        rw [List.flatten_cons, ih (start + maxC) qs hrec]
        rw [show c.drop (start + maxC) = (c.drop start).drop maxC from
          (List.drop_drop maxC start c).symm]
        exact List.take_append_drop maxC (c.drop start)
    · rw [if_neg hs] at h
      have : ps = [] := by simpa using h.symm
      subst this
      simp [List.drop_eq_nil_of_le (by omega : c.length ≤ start)]

lemma stage2_flatten_maxC (maxC : Nat) :
    ∀ (l out : List (List Char)), stage2 maxC maxC l = some out → out.flatten = l.flatten := by
  intro l
  induction l with
  | nil =>
    intro out h
    have : out = [] := by simpa [stage2] using h.symm
    subst this; rfl
  | cons c rest ih =>
    intro out h
    rw [stage2] at h
    by_cases hc : c.length ≤ maxC
    · rw [if_pos hc] at h
      cases h3 : stage2 maxC maxC rest with
      | none => rw [h3] at h; simp at h
      | some fs =>
        rw [h3] at h
        have hout : c :: fs = out := by simpa using h
        subst hout
        rw [List.flatten_cons, List.flatten_cons, ih fs h3]
    · rw [if_neg hc] at h
      cases h2 : hardSplitLoop c maxC maxC (c.length + 1) 0 with
      | none => rw [h2] at h; simp at h
      | some ps =>
        cases h3 : stage2 maxC maxC rest with
        | none => rw [h2, h3] at h; simp at h
        | some fs =>
          rw [h2, h3] at h
          have hout : ps ++ fs = out := by simpa using h
          subst hout
          rw [List.flatten_append, List.flatten_cons, ih fs h3,
            hardSplitLoop_flatten_maxC c maxC _ 0 ps h2]
          simp

lemma take_drop_overlap (l : List Char) (maxC overlap : Nat) (h : overlap ≤ maxC) :
    (l.take maxC).drop overlap = (l.drop overlap).take (maxC - overlap) := by
  have hm : overlap + (maxC - overlap) = maxC := by omega
  rw [List.take_drop, hm]

lemma hardSplitLoop_drop_flatten (c : List Char) (maxC overlap : Nat) (hov : overlap < maxC) :
    ∀ (fuel start : Nat) (ps : List (List Char)),
      hardSplitLoop c maxC (maxC - overlap) fuel start = some ps →
      (ps.map (List.drop overlap)).flatten = (c.drop start).drop overlap := by
  intro fuel
  induction fuel with
  | zero => intro start ps h; simp [hardSplitLoop] at h
  | succ n ih =>
    intro start ps h
    rw [hardSplitLoop] at h
    by_cases hs : start < c.length
    · rw [if_pos hs] at h
      cases hrec : hardSplitLoop c maxC (maxC - overlap) n (start + (maxC - overlap)) with
      | none => rw [hrec] at h; simp at h
      | some qs =>
        rw [hrec] at h
        have hqs : ((c.drop start).take maxC) :: qs = ps := by simpa using h
        subst hqs
        rw [List.map_cons, List.flatten_cons, ih _ qs hrec]
        rw [take_drop_overlap _ maxC overlap (by omega)]
        have e2 : (c.drop (start + (maxC - overlap))).drop overlap =
            ((c.drop start).drop overlap).drop (maxC - overlap) := by
          rw [List.drop_drop, List.drop_drop, List.drop_drop]
          congr 1
          omega
        rw [e2]
        exact List.take_append_drop (maxC - overlap) ((c.drop start).drop overlap)
    · rw [if_neg hs] at h
      have : ps = [] := by simpa using h.symm
      subst this
      simp [List.drop_eq_nil_of_le (by omega : c.length ≤ start)]

lemma hardSplitLoop_reconstruct (c : List Char) (maxC overlap : Nat) (hov : overlap < maxC)
    (hlen : maxC < c.length) :
    ∀ (fuel : Nat) (ps : List (List Char)),
      hardSplitLoop c maxC (maxC - overlap) fuel 0 = some ps →
      overlapReconstruct overlap ps = c := by
  intro fuel ps h
  cases fuel with
  | zero => simp [hardSplitLoop] at h
  | succ n =>
    rw [hardSplitLoop] at h
    rw [if_pos (by omega : 0 < c.length)] at h
    cases hrec : hardSplitLoop c maxC (maxC - overlap) n (0 + (maxC - overlap)) with
    | none => rw [hrec] at h; simp at h
    | some qs =>
      rw [hrec] at h
      have hqs : ((c.drop 0).take maxC) :: qs = ps := by simpa using h
      subst hqs
      rw [overlapReconstruct]
      rw [hardSplitLoop_drop_flatten c maxC overlap hov n _ qs hrec]
      rw [show (c.drop (0 + (maxC - overlap))).drop overlap = c.drop maxC by
        rw [List.drop_drop]; congr 1; omega]
      simp only [List.drop_zero]
      exact List.take_append_drop maxC c

/-- C7 (corrected): the claimed reconstruction — strip the `overlap`-length
prefix from every chunk after the first and concatenate — holds (a) for
`overlap = 0`, where the concatenation of the chunks differs from the input
paragraphs only in the joining newlines, and (b) exactly, for every
newline-free already-stripped input and any `0 <= overlap < max_chars`.
For positive overlap on multi-paragraph input it fails
(see the counterexample): the carried-over prefix is re-stripped and joined
with a fresh newline, so its length need not be `overlap`. -/
theorem simple_chunk_coverage_amended :
    (∀ (text : List Char) (maxC : Nat), 0 < maxC →
      ∃ cs, simple_chunk text maxC 0 = some cs ∧
        nlf cs.flatten = (parasOf text).flatten) ∧
    (∀ (text : List Char) (maxC overlap : Nat), overlap < maxC → '\n' ∉ text →
      pyStrip text = text →
      ∃ cs, simple_chunk text maxC overlap = some cs ∧
        overlapReconstruct overlap cs = text) := by
  constructor
  · intro text maxC hm
    by_cases ht : text.isEmpty
    · refine ⟨[], by simp [simple_chunk, ht], ?_⟩
      have htx : text = [] := List.isEmpty_iff.mp ht
      subst htx
      simp [nlf, parasOf, splitNl, pyStrip]
    · have h1 := stage2_isSome maxC maxC (by omega) (stage1 (parasOf text) maxC 0)
      cases h2 : stage2 maxC maxC (stage1 (parasOf text) maxC 0) with
      | none => rw [h2] at h1; simp at h1
      | some cs =>
        refine ⟨cs, ?_, ?_⟩
        · rw [simple_chunk, if_neg (by simpa using ht)]
          exact h2
        · rw [stage2_flatten_maxC maxC _ cs h2]
          exact stage1_zero_flatten maxC (parasOf text) (parasOf_mem text)
  · intro text maxC overlap hov hnl hstrip
    by_cases ht : text.isEmpty
    · have htx : text = [] := List.isEmpty_iff.mp ht
      subst htx
      exact ⟨[], by simp [simple_chunk], rfl⟩
    · have htx : text ≠ [] := fun he => ht (by simp [he])
      have hpar : parasOf text = [text] := by
        rw [parasOf, splitNl_of_no_nl text hnl]
        simp [hstrip, htx]
      have hst : stage1 [text] maxC overlap = [text] := by
        rw [stage1]
        simp [flushStep, List.isEmpty_iff, htx]
      by_cases hlen : text.length ≤ maxC
      · refine ⟨[text], ?_, ?_⟩
        · simp [simple_chunk, ht, hpar, hst, stage2, hlen]
        · simp [overlapReconstruct]
      · have hstep : 1 ≤ maxC - overlap := by omega
        have h1 := hardSplitLoop_isSome text maxC (maxC - overlap) hstep (text.length + 1) 0
          (by omega)
        cases h2 : hardSplitLoop text maxC (maxC - overlap) (text.length + 1) 0 with
        | none => rw [h2] at h1; simp at h1
        | some ps =>
          refine ⟨ps, ?_, ?_⟩
          · simp [simple_chunk, ht, hpar, hst, stage2, hlen, h2]
          · exact hardSplitLoop_reconstruct text maxC overlap hov (by omega) _ ps h2

/-- C7 counterexample: for input `"abc\nefghijkl"`, `max_chars = 10`,
`overlap = 4`, the chunker returns `["abc", "efghijkl"]` (the carried
overlap prefix was emptied because `len(buf) <= overlap` at the flush), so
the claimed reconstruction drops the characters `"efgh"` of the second
paragraph: it does not differ from the input only in spacing — it loses
non-whitespace characters. -/
theorem simple_chunk_coverage_counterexample :
    simple_chunk "abc\nefghijkl".data 10 4 = some ["abc".data, "efghijkl".data] ∧
    overlapReconstruct 4 ["abc".data, "efghijkl".data] = "abcijkl".data ∧
    ¬ ((overlapReconstruct 4 ["abc".data, "efghijkl".data]).filter (fun c => !(pySpace c)) =
        ("abc\nefghijkl".data).filter (fun c => !(pySpace c))) := by
  refine ⟨by decide, by decide, by decide⟩

/-- Witness for `simple_chunk_coverage_amended`: part (a) at a two-paragraph
input with `overlap = 0`, part (b) at a 16-character single-paragraph input
with `overlap = 4 < max_chars = 10`. -/
theorem simple_chunk_coverage_amended_witness :
    ((0 : Nat) < 10 ∧
      ∃ cs, simple_chunk "ab\ncd".data 10 0 = some cs ∧
        nlf cs.flatten = (parasOf "ab\ncd".data).flatten) ∧
    ((4 : Nat) < 10 ∧ '\n' ∉ "abcdefghijklmnop".data ∧
      pyStrip "abcdefghijklmnop".data = "abcdefghijklmnop".data ∧
      ∃ cs, simple_chunk "abcdefghijklmnop".data 10 4 = some cs ∧
        overlapReconstruct 4 cs = "abcdefghijklmnop".data) :=
  ⟨⟨by decide, simple_chunk_coverage_amended.1 "ab\ncd".data 10 (by decide)⟩,
    ⟨by decide, by decide, by decide,
      simple_chunk_coverage_amended.2 "abcdefghijklmnop".data 10 4 (by decide) (by decide)
        (by decide)⟩⟩

/-! ### Deduplicating store: `SqlStore` from src/sql/db.py -/

/-- The fields of the `doc` dict passed to `SqlStore.upsert_document`
(the `.get` defaults of the source are applied by the caller building
this record). -/
structure DocIn where
  url : String
  title : String
  source : String
  date_published : String
  content_hash : String
  raw_text : String
  lang : String
deriving DecidableEq

/-- A row of the `documents` table. -/
structure DocRow where
  id : Nat
  url : String
  title : String
  source : String
  date_published : String
  date_crawled : String
  content_hash : String
  raw_text : String
  lang : String
deriving DecidableEq

/-- The `documents` table: rows in insertion order plus the
`INTEGER PRIMARY KEY AUTOINCREMENT` counter. -/
structure SqlStore where
  rows : List DocRow
  nextId : Nat
deriving DecidableEq

/-- `SELECT id FROM documents WHERE url=? OR content_hash=?` (first match
in table order). -/
def findByUrlOrHash (s : SqlStore) (url contentHash : String) : Option DocRow :=
  s.rows.find? (fun r => r.url == url || r.content_hash == contentHash)

/-- `SqlStore.upsert_document`: look up an existing row by `url` OR
`content_hash`; if found, return its id and perform no write; otherwise
insert a new row stamped with the current time `now` and return the fresh
id.  The returned `Bool` records which branch ran, i.e. whether a row was
inserted (the Python function communicates this only through its side
effect on the table). -/
def upsert_document (s : SqlStore) (doc : DocIn) (now : String) : SqlStore × Nat × Bool :=
  match findByUrlOrHash s doc.url doc.content_hash with
  | some r => (s, r.id, false)
  | none =>
    let row : DocRow :=
      { id := s.nextId, url := doc.url, title := doc.title, source := doc.source,
        date_published := doc.date_published, date_crawled := now,
        content_hash := doc.content_hash, raw_text := doc.raw_text, lang := doc.lang }
    ({ rows := s.rows ++ [row], nextId := s.nextId + 1 }, s.nextId, true)

/-- C1: two upserts whose documents share a `url` or share a
`content_hash` (in either order of the disjunction), starting from any
table where neither key is yet present: the first call inserts, and the
second call returns the id produced by the first call with
`inserted = false`, performs no write (the table — including every field
of the existing row — is unchanged, so first-write wins), and the row
count is unchanged. -/
theorem upsert_document_dedup (s : SqlStore) (doc1 doc2 : DocIn) (now1 now2 : String)
    (h1 : findByUrlOrHash s doc1.url doc1.content_hash = none)
    (h2 : findByUrlOrHash s doc2.url doc2.content_hash = none)
    (hkey : doc2.url = doc1.url ∨ doc2.content_hash = doc1.content_hash) :
    (upsert_document s doc1 now1).2.2 = true ∧
    (upsert_document (upsert_document s doc1 now1).1 doc2 now2).2.2 = false ∧
    (upsert_document (upsert_document s doc1 now1).1 doc2 now2).2.1 =
      (upsert_document s doc1 now1).2.1 ∧
    (upsert_document (upsert_document s doc1 now1).1 doc2 now2).1 =
      (upsert_document s doc1 now1).1 ∧
    (upsert_document (upsert_document s doc1 now1).1 doc2 now2).1.rows.length =
      (upsert_document s doc1 now1).1.rows.length := by
  set u1 := upsert_document s doc1 now1 with hu1
  have e1 : u1 =
      ({ rows := s.rows ++
          [{ id := s.nextId, url := doc1.url, title := doc1.title, source := doc1.source,
             date_published := doc1.date_published, date_crawled := now1,
             content_hash := doc1.content_hash, raw_text := doc1.raw_text,
             lang := doc1.lang }], nextId := s.nextId + 1 }, s.nextId, true) := by
    rw [hu1, upsert_document, h1]
  have hrow : (fun r : DocRow => r.url == doc2.url || r.content_hash == doc2.content_hash)
      { id := s.nextId, url := doc1.url, title := doc1.title, source := doc1.source,
        date_published := doc1.date_published, date_crawled := now1,
        content_hash := doc1.content_hash, raw_text := doc1.raw_text,
        lang := doc1.lang } = true := by
    rcases hkey with hk | hk <;> simp [hk]
  have e2 : findByUrlOrHash u1.1 doc2.url doc2.content_hash =
      some { id := s.nextId, url := doc1.url, title := doc1.title, source := doc1.source,
             date_published := doc1.date_published, date_crawled := now1,
             content_hash := doc1.content_hash, raw_text := doc1.raw_text,
             lang := doc1.lang } := by
    rw [e1]
    show ((s.rows ++ [_]).find? _) = _
    rw [List.find?_append]
    rw [show s.rows.find?
        (fun r => r.url == doc2.url || r.content_hash == doc2.content_hash) = none from h2]
    simp [hrow]
  have e3 : upsert_document u1.1 doc2 now2 = (u1.1, s.nextId, false) := by
    rw [upsert_document, e2]
  rw [e3, e1]
  exact ⟨rfl, rfl, rfl, rfl, rfl⟩

/-- Witness for `upsert_document_dedup`: an empty store and two documents
sharing the same url. -/
theorem upsert_document_dedup_witness :
    (findByUrlOrHash ⟨[], 1⟩ "http://a" "h1" = none ∧
     findByUrlOrHash ⟨[], 1⟩ "http://a" "h2" = none ∧
     (("http://a" : String) = "http://a" ∨ ("h2" : String) = "h1")) ∧
    ((upsert_document ⟨[], 1⟩ ⟨"http://a", "t1", "s1", "d1", "h1", "r1", "ko"⟩ "c1").2.2 = true ∧
     (upsert_document (upsert_document ⟨[], 1⟩ ⟨"http://a", "t1", "s1", "d1", "h1", "r1", "ko"⟩
        "c1").1 ⟨"http://a", "t2", "s2", "d2", "h2", "r2", "en"⟩ "c2").2.2 = false ∧
     (upsert_document (upsert_document ⟨[], 1⟩ ⟨"http://a", "t1", "s1", "d1", "h1", "r1", "ko"⟩
        "c1").1 ⟨"http://a", "t2", "s2", "d2", "h2", "r2", "en"⟩ "c2").2.1 =
       (upsert_document ⟨[], 1⟩ ⟨"http://a", "t1", "s1", "d1", "h1", "r1", "ko"⟩ "c1").2.1 ∧
     (upsert_document (upsert_document ⟨[], 1⟩ ⟨"http://a", "t1", "s1", "d1", "h1", "r1", "ko"⟩
        "c1").1 ⟨"http://a", "t2", "s2", "d2", "h2", "r2", "en"⟩ "c2").1 =
       (upsert_document ⟨[], 1⟩ ⟨"http://a", "t1", "s1", "d1", "h1", "r1", "ko"⟩ "c1").1 ∧
     (upsert_document (upsert_document ⟨[], 1⟩ ⟨"http://a", "t1", "s1", "d1", "h1", "r1", "ko"⟩
        "c1").1 ⟨"http://a", "t2", "s2", "d2", "h2", "r2", "en"⟩ "c2").1.rows.length =
       (upsert_document ⟨[], 1⟩ ⟨"http://a", "t1", "s1", "d1", "h1", "r1", "ko"⟩
         "c1").1.rows.length) :=
  ⟨⟨by decide, by decide, Or.inl rfl⟩,
    upsert_document_dedup ⟨[], 1⟩ ⟨"http://a", "t1", "s1", "d1", "h1", "r1", "ko"⟩
      ⟨"http://a", "t2", "s2", "d2", "h2", "r2", "en"⟩ "c1" "c2" (by decide) (by decide)
      (Or.inl rfl)⟩

/-! ### Cosine similarity and MMR selection: src/retriever/search.py -/

/-- `sum(x*y for x, y in zip(a, b))` (Python `zip` truncates to the
shorter list). -/
noncomputable def listDot (a b : List ℝ) : ℝ := ((a.zip b).map (fun p => p.1 * p.2)).sum

/-- `math.sqrt(sum(x*x for x in a))` -/
noncomputable def listNorm (a : List ℝ) : ℝ := Real.sqrt ((a.map (fun x => x * x)).sum)

/-- `_cosine(a, b)` from src/retriever/search.py: the denominator norm
product is guarded by adding `1e-12`. -/
noncomputable def _cosine (a b : List ℝ) : ℝ :=
  listDot a b / (listNorm a * listNorm b + 1e-12)

/-- `rel_scores[i] = _cosine(query_vec, cand_vecs[i])`.  An out-of-range
index (which would raise `IndexError` in Python) is mapped to the empty
vector; the theorems below restrict candidate ids to valid indices. -/
noncomputable def relScore (q : List ℝ) (vecs : List (List ℝ)) (i : Nat) : ℝ :=
  _cosine q (vecs.getD i [])

/-- The MMR score of candidate `i` at a pick with current selection
`selected`: pure relevance for the first pick, else
`λ * rel - (1-λ) * max(sim to selected)` (Python `max` over the non-empty
selection is a fold of binary `max`). -/
noncomputable def mmrScore (q : List ℝ) (vecs : List (List ℝ)) (lam : ℝ)
    (selected : List Nat) (i : Nat) : ℝ :=
  match selected with
  | [] => relScore q vecs i
  | j :: rest =>
    lam * relScore q vecs i - (1 - lam) *
      (rest.foldl (fun m j2 => max m (_cosine (vecs.getD i []) (vecs.getD j2 [])))
        (_cosine (vecs.getD i []) (vecs.getD j [])))

/-- The inner `for i in list(remaining)` argmax scan of `_mmr_select`:
start from `best_i = None, best_score = -1e9`, update only on strict
improvement, so the first candidate achieving the maximum wins. -/
noncomputable def bestCandAux (f : Nat → ℝ) : List Nat → Option Nat × ℝ → Option Nat × ℝ
  | [], acc => acc
  | i :: rest, acc => bestCandAux f rest (if acc.2 < f i then (some i, f i) else acc)

noncomputable def bestCand (f : Nat → ℝ) (l : List Nat) : Option Nat :=
  (bestCandAux f l (none, -1e9)).1

/-- The `while remaining and len(selected) < k` loop of `_mmr_select`.
If `best_i` stayed `None` (impossible for the source's bounded scores, see
`mmrScore_gt`) Python would raise in `remaining.remove(best_i)`; the model
returns the current selection there. -/
noncomputable def mmrLoop (score : List Nat → Nat → ℝ) (k : Nat)
    (selected remaining : List Nat) : List Nat :=
  if h : remaining = [] ∨ ¬ selected.length < k then selected
  else
    match bestCand (score selected) remaining with
    | none => selected
    | some b =>
      if hb : b ∈ remaining then mmrLoop score k (selected ++ [b]) (remaining.erase b)
      else selected
termination_by remaining.length
decreasing_by
  rw [List.length_erase_of_mem hb]
  have hne : remaining ≠ [] := fun he => h (Or.inl he)
  have hpos : 0 < remaining.length := List.length_pos.mpr hne
  omega

/-- `_mmr_select` from src/retriever/search.py.  `remaining = set(cand_idxs)`
is modelled as the deduplicated id list: at both call sites of the source
the ids are `list(range(len(docs)))`, for which the CPython set holds the
same elements and iterates them in increasing order (= input order); for an
id list with duplicates the set still holds each id once. -/
noncomputable def _mmr_select (query_vec : List ℝ) (cand_vecs : List (List ℝ))
    (cand_idxs : List Nat) (k : Nat) (lambda_coef : ℝ) : List Nat :=
  mmrLoop (mmrScore query_vec cand_vecs lambda_coef) k [] cand_idxs.dedup

/-! ### Cosine bound (C8) -/

lemma listSq_nonneg (a : List ℝ) : 0 ≤ (a.map (fun x => x * x)).sum := by
  apply List.sum_nonneg
  intro x hx
  rw [List.mem_map] at hx
  obtain ⟨y, _, rfl⟩ := hx
  exact mul_self_nonneg y

lemma cs_step (x y A B d : ℝ) (hA : 0 ≤ A) (hB : 0 ≤ B) (hd : d ^ 2 ≤ A * B) :
    (x * y + d) ^ 2 ≤ (x * x + A) * (y * y + B) := by
  rcases eq_or_lt_of_le hB with hB0 | hBpos
  · have hd0 : d = 0 := by nlinarith [sq_nonneg d]
    subst hd0
    nlinarith [mul_nonneg hA (mul_self_nonneg y)]
  · have h1 : 0 ≤ y * y + B := by nlinarith [mul_self_nonneg y]
    have h2 : 0 ≤ A * B - d ^ 2 := by linarith
    have key : 0 ≤ (x * B - y * d) ^ 2 + (y * y + B) * (A * B - d ^ 2) :=
      add_nonneg (sq_nonneg _) (mul_nonneg h1 h2)
    have expand : B * ((x * x + A) * (y * y + B) - (x * y + d) ^ 2) =
        (x * B - y * d) ^ 2 + (y * y + B) * (A * B - d ^ 2) := by ring
    have h3 : 0 ≤ B * ((x * x + A) * (y * y + B) - (x * y + d) ^ 2) := by
      rw [expand]; exact key
    nlinarith [h3, hBpos]

lemma listDot_sq_le : ∀ a b : List ℝ,
    (listDot a b) ^ 2 ≤ (a.map (fun x => x * x)).sum * (b.map (fun x => x * x)).sum := by
  intro a
  induction a with
  | nil => intro b; simp [listDot]
  | cons x a2 ih =>
    intro b
    cases b with
    | nil => simp [listDot]
    | cons y b2 =>
      have step := cs_step x y ((a2.map (fun x => x * x)).sum) ((b2.map (fun x => x * x)).sum)
        (listDot a2 b2) (listSq_nonneg a2) (listSq_nonneg b2) (ih b2)
      simp only [listDot, List.zip_cons_cons, List.map_cons, List.sum_cons]
      exact step

lemma abs_listDot_le (a b : List ℝ) : |listDot a b| ≤ listNorm a * listNorm b := by
  have h2 : Real.sqrt ((listDot a b) ^ 2) ≤
      Real.sqrt ((a.map (fun x => x * x)).sum * (b.map (fun x => x * x)).sum) :=
    Real.sqrt_le_sqrt (listDot_sq_le a b)
  rw [Real.sqrt_sq_eq_abs, Real.sqrt_mul (listSq_nonneg a)] at h2
  exact h2

lemma cosine_abs_lt_one (a b : List ℝ) : |_cosine a b| < 1 := by
  have hd := abs_listDot_le a b
  have hN : 0 ≤ listNorm a * listNorm b :=
    mul_nonneg (Real.sqrt_nonneg _) (Real.sqrt_nonneg _)
  have hden : 0 < listNorm a * listNorm b + 1e-12 :=
    add_pos_of_nonneg_of_pos hN (by norm_num)
  rw [show _cosine a b = listDot a b / (listNorm a * listNorm b + 1e-12) from rfl]
  rw [abs_div, abs_of_pos hden, div_lt_one hden]
  have : listNorm a * listNorm b < listNorm a * listNorm b + 1e-12 :=
    lt_add_of_pos_right _ (by norm_num)
  linarith

/-- C8: for input vectors of equal dimension, `_cosine` is defined (the
denominator is the norm product plus `1e-12`, hence strictly positive) and
its value lies in `[-1, 1]`. -/
theorem cosine_bounds (a b : List ℝ) (h : a.length = b.length) :
    0 < listNorm a * listNorm b + 1e-12 ∧ -1 ≤ _cosine a b ∧ _cosine a b ≤ 1 := by
  have habs := cosine_abs_lt_one a b
  rw [abs_lt] at habs
  refine ⟨?_, le_of_lt habs.1, le_of_lt habs.2⟩
  exact add_pos_of_nonneg_of_pos
    (mul_nonneg (Real.sqrt_nonneg _) (Real.sqrt_nonneg _)) (by norm_num)

/-- Witness for `cosine_bounds` at `a = b = [1]`. -/
theorem cosine_bounds_witness :
    ([(1 : ℝ)].length = [(1 : ℝ)].length) ∧
    (0 < listNorm [(1 : ℝ)] * listNorm [(1 : ℝ)] + 1e-12 ∧
      -1 ≤ _cosine [(1 : ℝ)] [(1 : ℝ)] ∧ _cosine [(1 : ℝ)] [(1 : ℝ)] ≤ 1) :=
  ⟨rfl, cosine_bounds [(1 : ℝ)] [(1 : ℝ)] rfl⟩

/-! ### MMR lemmas (C3, C6) -/

lemma foldl_max_lt (g : Nat → ℝ) (c : ℝ) :
    ∀ (l : List Nat) (init : ℝ), init < c → (∀ v ∈ l, g v < c) →
      l.foldl (fun m v => max m (g v)) init < c := by
  intro l
  induction l with
  | nil => intro init h _; simpa using h
  | cons v vs ih =>
    intro init h hv
    rw [List.foldl_cons]
    exact ih (max init (g v)) (max_lt h (hv v (List.mem_cons_self v vs)))
      (fun w hw => hv w (List.mem_cons_of_mem v hw))

/-- Every MMR score of the source exceeds the `-1e9` sentinel, because
cosine values are strictly inside `(-1, 1)` and `λ ∈ [0, 1]`; hence
`best_i` is always assigned in a non-empty scan. -/
lemma mmrScore_gt (q : List ℝ) (vecs : List (List ℝ)) (lam : ℝ)
    (h0 : 0 ≤ lam) (h1 : lam ≤ 1) (selected : List Nat) (i : Nat) :
    (-1e9 : ℝ) < mmrScore q vecs lam selected i := by
  have hbig : (-1e9 : ℝ) < -1 := by norm_num
  cases selected with
  | nil =>
    have hrel := cosine_abs_lt_one q (vecs.getD i [])
    rw [abs_lt] at hrel
    show (-1e9 : ℝ) < relScore q vecs i
    have : (-1 : ℝ) < relScore q vecs i := hrel.1
    linarith
  | cons j rest =>
    have hrel := cosine_abs_lt_one q (vecs.getD i [])
    rw [abs_lt] at hrel
    have hrel1 : (-1 : ℝ) < relScore q vecs i := hrel.1
    have hms : (rest.foldl (fun m j2 => max m (_cosine (vecs.getD i []) (vecs.getD j2 [])))
        (_cosine (vecs.getD i []) (vecs.getD j []))) < 1 := by
      apply foldl_max_lt (fun j2 => _cosine (vecs.getD i []) (vecs.getD j2 [])) 1 rest
      · have h := cosine_abs_lt_one (vecs.getD i []) (vecs.getD j [])
        rw [abs_lt] at h
        exact h.2
      · intro v _
        have h := cosine_abs_lt_one (vecs.getD i []) (vecs.getD v [])
        rw [abs_lt] at h
        exact h.2
    show (-1e9 : ℝ) < lam * relScore q vecs i - (1 - lam) *
      (rest.foldl (fun m j2 => max m (_cosine (vecs.getD i []) (vecs.getD j2 [])))
        (_cosine (vecs.getD i []) (vecs.getD j [])))
    have h2 : lam * (-1 : ℝ) ≤ lam * relScore q vecs i :=
      mul_le_mul_of_nonneg_left (le_of_lt hrel1) h0
    have h3 : (1 - lam) *
        (rest.foldl (fun m j2 => max m (_cosine (vecs.getD i []) (vecs.getD j2 [])))
          (_cosine (vecs.getD i []) (vecs.getD j []))) ≤ (1 - lam) * 1 :=
      mul_le_mul_of_nonneg_left (le_of_lt hms) (by linarith)
    linarith

/-- Full specification of the argmax scan: the best score only improves,
dominates every scanned candidate, and either nothing beat the incoming
accumulator, or the result is the first candidate attaining the maximum
(everything before it scores strictly less, everything after at most as
much). -/
lemma bestCandAux_spec (f : Nat → ℝ) :
    ∀ (l : List Nat) (bi : Option Nat) (bs : ℝ),
      bs ≤ (bestCandAux f l (bi, bs)).2 ∧
      (∀ j ∈ l, f j ≤ (bestCandAux f l (bi, bs)).2) ∧
      (bestCandAux f l (bi, bs) = (bi, bs) ∧ (∀ j ∈ l, f j ≤ bs) ∨
        ∃ b l1 l2, (bestCandAux f l (bi, bs)).1 = some b ∧
          (bestCandAux f l (bi, bs)).2 = f b ∧ l = l1 ++ b :: l2 ∧ bs < f b ∧
          (∀ j ∈ l1, f j < f b) ∧ (∀ j ∈ l2, f j ≤ f b)) := by
  intro l
  induction l with
  | nil =>
    intro bi bs
    exact ⟨le_refl _, by simp, Or.inl ⟨rfl, by simp⟩⟩
  | cons i rest ih =>
    intro bi bs
    rw [bestCandAux]
    by_cases hi : bs < f i
    · rw [if_pos hi]
      obtain ⟨g1, g2, g3⟩ := ih (some i) (f i)
      refine ⟨le_trans (le_of_lt hi) g1, ?_, ?_⟩
      · intro j hj
        rcases List.mem_cons.mp hj with rfl | hj
        · exact g1
        · exact g2 j hj
      · rcases g3 with ⟨heq, hall⟩ | ⟨b, l1, l2, hb1, hb2, hb3, hb4, hb5, hb6⟩
        · right
          exact ⟨i, [], rest, by rw [heq], by rw [heq], by simp, hi, by simp, hall⟩
        · right
          refine ⟨b, i :: l1, l2, hb1, hb2, by simp [hb3], lt_trans hi hb4, ?_, hb6⟩
          intro j hj
          rcases List.mem_cons.mp hj with rfl | hj
          · exact hb4
          · exact hb5 j hj
    · rw [if_neg hi]
      have hfi : f i ≤ bs := le_of_not_lt hi
      obtain ⟨g1, g2, g3⟩ := ih bi bs
      refine ⟨g1, ?_, ?_⟩
      · intro j hj
        rcases List.mem_cons.mp hj with rfl | hj
        · exact le_trans hfi g1
        · exact g2 j hj
      · rcases g3 with ⟨heq, hall⟩ | ⟨b, l1, l2, hb1, hb2, hb3, hb4, hb5, hb6⟩
        · left
          refine ⟨heq, ?_⟩
          intro j hj
          rcases List.mem_cons.mp hj with rfl | hj
          · exact hfi
          · exact hall j hj
        · right
          refine ⟨b, i :: l1, l2, hb1, hb2, by simp [hb3], hb4, ?_, hb6⟩
          intro j hj
          rcases List.mem_cons.mp hj with rfl | hj
          · exact lt_of_le_of_lt hfi hb4
          · exact hb5 j hj

/-- With every score above the sentinel and a non-empty scan, `bestCand`
returns the first maximiser. -/
lemma bestCand_spec (f : Nat → ℝ) (l : List Nat) (hne : l ≠ [])
    (hgt : ∀ j ∈ l, (-1e9 : ℝ) < f j) :
    ∃ b l1 l2, bestCand f l = some b ∧ l = l1 ++ b :: l2 ∧
      (∀ j ∈ l, f j ≤ f b) ∧ (∀ j ∈ l1, f j < f b) ∧ (∀ j ∈ l2, f j ≤ f b) := by
  obtain ⟨g1, g2, g3⟩ := bestCandAux_spec f l none (-1e9)
  rcases g3 with ⟨heq, hall⟩ | ⟨b, l1, l2, hb1, hb2, hb3, hb4, hb5, hb6⟩
  · obtain ⟨j, hj⟩ := List.exists_mem_of_ne_nil l hne
    exact absurd (hall j hj) (not_le.mpr (hgt j hj))
  · refine ⟨b, l1, l2, hb1, hb3, ?_, hb5, hb6⟩
    intro j hj
    calc f j ≤ (bestCandAux f l (none, -1e9)).2 := g2 j hj
      _ = f b := hb2

/-- One unfolding of the selection loop when the guard passes and the
argmax scan found `b`: the loop selects `b` and continues. -/
lemma mmrLoop_step (score : List Nat → Nat → ℝ) (k : Nat)
    (selected remaining : List Nat) (b : Nat) (hne : remaining ≠ [])
    (hk : selected.length < k)
    (hbc : bestCand (score selected) remaining = some b) (hb : b ∈ remaining) :
    mmrLoop score k selected remaining =
      mmrLoop score k (selected ++ [b]) (remaining.erase b) := by
  conv_lhs => rw [mmrLoop]
  rw [dif_neg (show ¬(remaining = [] ∨ ¬selected.length < k) from
    fun h => h.elim hne (fun h2 => h2 hk))]
  rw [hbc]
  show (if _ : b ∈ remaining then
      mmrLoop score k (selected ++ [b]) (remaining.erase b) else selected) = _
  rw [dif_pos hb]

/-- Correctness of the selection loop: starting from a duplicate-free
remaining pool disjoint from the current selection, the loop returns a
duplicate-free list of exactly `|selected| + min (k - |selected|)
|remaining|` ids. -/
lemma mmrLoop_spec (q : List ℝ) (vecs : List (List ℝ)) (lam : ℝ)
    (h0 : 0 ≤ lam) (h1 : lam ≤ 1) (k : Nat) :
    ∀ (n : Nat) (remaining selected : List Nat), remaining.length = n →
      remaining.Nodup → selected.Nodup → (∀ x ∈ selected, x ∉ remaining) →
      (mmrLoop (mmrScore q vecs lam) k selected remaining).Nodup ∧
      (mmrLoop (mmrScore q vecs lam) k selected remaining).length =
        selected.length + min (k - selected.length) remaining.length := by
  intro n
  induction n using Nat.strong_induction_on with
  | _ n ih =>
    intro remaining selected hlen hrnd hsnd hdisj
    by_cases hguard : remaining = [] ∨ ¬ selected.length < k
    · rw [mmrLoop, dif_pos hguard]
      refine ⟨hsnd, ?_⟩
      rcases hguard with hg | hg
      · subst hg; simp
      · have hz : k - selected.length = 0 := by omega
        simp [hz]
    · push_neg at hguard
      obtain ⟨hne, hk⟩ := hguard
      obtain ⟨b, l1, l2, hbc, hdec, hmax, hpre, hsuf⟩ :=
        bestCand_spec (mmrScore q vecs lam selected) remaining hne
          (fun j _ => mmrScore_gt q vecs lam h0 h1 selected j)
      have hbmem : b ∈ remaining := by
        rw [hdec]; exact List.mem_append_right _ (List.mem_cons_self b l2)
      rw [mmrLoop_step (mmrScore q vecs lam) k selected remaining b hne hk hbc hbmem]
      have hblen : (remaining.erase b).length = remaining.length - 1 :=
        List.length_erase_of_mem hbmem
      have hpos : 0 < remaining.length := List.length_pos.mpr hne
      have hbs : b ∉ selected := fun hb => hdisj b hb hbmem
      have hsnd2 : (selected ++ [b]).Nodup := by
        rw [List.nodup_append]
        refine ⟨hsnd, List.nodup_singleton b, ?_⟩
        intro a ha hb2
        rw [List.mem_singleton] at hb2
        subst hb2
        exact hbs ha
      have hdisj2 : ∀ x ∈ selected ++ [b], x ∉ remaining.erase b := by
        intro x hx
        rcases List.mem_append.mp hx with hx | hx
        · exact fun hxe => hdisj x hx (List.erase_subset b remaining hxe)
        · rw [List.mem_singleton] at hx
          subst hx
          exact hrnd.not_mem_erase
      obtain ⟨hrec1, hrec2⟩ := ih (remaining.erase b).length (by omega) (remaining.erase b)
        (selected ++ [b]) rfl (hrnd.erase b) hsnd2 hdisj2
      refine ⟨hrec1, ?_⟩
      rw [hrec2, List.length_append]
      simp only [List.length_singleton]
      omega

/-- C3 counterexample: `remaining = set(cand_idxs)` collapses duplicate
candidate ids, so for the id list `[0, 0]` and `k = 2` the selection has
length 1, not `min(k, |candidate id list|) = 2`. -/
theorem mmr_select_duplicate_ids :
    (_mmr_select [(1 : ℝ)] [[(1 : ℝ)]] [0, 0] 2 0).length = 1 ∧
    min 2 ([0, 0] : List Nat).length = 2 := by
  constructor
  · have hd : ([0, 0] : List Nat).dedup = [0] := by decide
    have hspec := mmrLoop_spec [(1 : ℝ)] [[(1 : ℝ)]] 0 le_rfl zero_le_one 2 1 [0] [] rfl
      (by decide) List.nodup_nil (by simp)
    show (mmrLoop (mmrScore [(1 : ℝ)] [[(1 : ℝ)]] 0) 2 [] ([0, 0] : List Nat).dedup).length = 1
    rw [hd, hspec.2]
    decide
  · decide

/-- C3 (amended): for candidate id lists without duplicates whose ids are
valid indices into the candidate vector list (as at both call sites, where
the ids are `range(len(docs))`), and for `k >= 0` and `lambda in [0, 1]`,
`_mmr_select` returns pairwise-distinct ids, exactly
`min(k, number of candidates)` of them, and in particular never more
than `k`. -/
theorem mmr_select_cardinality (q : List ℝ) (vecs : List (List ℝ)) (idxs : List Nat)
    (k : Nat) (lam : ℝ) (hnd : idxs.Nodup) (hrange : ∀ i ∈ idxs, i < vecs.length)
    (h0 : 0 ≤ lam) (h1 : lam ≤ 1) :
    (_mmr_select q vecs idxs k lam).Nodup ∧
    (_mmr_select q vecs idxs k lam).length = min k idxs.length ∧
    (_mmr_select q vecs idxs k lam).length ≤ k := by
  have hd : idxs.dedup = idxs := hnd.dedup
  have hspec := mmrLoop_spec q vecs lam h0 h1 k idxs.length idxs [] rfl hnd
    List.nodup_nil (by simp)
  have he : _mmr_select q vecs idxs k lam = mmrLoop (mmrScore q vecs lam) k [] idxs := by
    rw [_mmr_select, hd]
  rw [he, hspec.2]
  refine ⟨hspec.1, ?_, ?_⟩ <;> simp only [List.length_nil] <;> omega

/-- Witness for `mmr_select_cardinality`: ids `[0, 1]` over two unit
vectors, `k = 1`, `lambda = 0`. -/
theorem mmr_select_cardinality_witness :
    (([0, 1] : List Nat).Nodup ∧ (∀ i ∈ ([0, 1] : List Nat), i < 2) ∧
      (0 : ℝ) ≤ 0 ∧ (0 : ℝ) ≤ 1) ∧
    ((_mmr_select [(1 : ℝ)] [[(1 : ℝ)], [(1 : ℝ)]] [0, 1] 1 0).Nodup ∧
      (_mmr_select [(1 : ℝ)] [[(1 : ℝ)], [(1 : ℝ)]] [0, 1] 1 0).length =
        min 1 ([0, 1] : List Nat).length ∧
      (_mmr_select [(1 : ℝ)] [[(1 : ℝ)], [(1 : ℝ)]] [0, 1] 1 0).length ≤ 1) :=
  ⟨⟨by decide, by decide, le_rfl, zero_le_one⟩,
    (mmr_select_cardinality [(1 : ℝ)] [[(1 : ℝ)], [(1 : ℝ)]] [0, 1] 1 0 (by decide)
      (by decide) le_rfl zero_le_one).imp id
      (fun h => ⟨by rw [h.1], h.2⟩)⟩

/-- C6: at any pick of the selection loop (any reachable state: `remaining`
an order-preserving subset of the input candidate ordering, non-empty, with
the selection quota not yet filled), the chosen candidate `b` attains the
maximal MMR score, and every other unselected candidate tied with `b`
occurs strictly later in the input candidate ordering (`cand_idxs`
decomposes as `L1 ++ b :: L2` with every tied candidate in `L2`); the loop
continues exactly with `b` selected. -/
theorem mmr_select_tie_break (q : List ℝ) (vecs : List (List ℝ)) (lam : ℝ)
    (cand_idxs selected remaining : List Nat) (k : Nat)
    (h0 : 0 ≤ lam) (h1 : lam ≤ 1) (hsub : remaining.Sublist cand_idxs)
    (hne : remaining ≠ []) (hk : selected.length < k) :
    ∃ b, bestCand (mmrScore q vecs lam selected) remaining = some b ∧
      mmrLoop (mmrScore q vecs lam) k selected remaining =
        mmrLoop (mmrScore q vecs lam) k (selected ++ [b]) (remaining.erase b) ∧
      (∀ j ∈ remaining, mmrScore q vecs lam selected j ≤ mmrScore q vecs lam selected b) ∧
      ∃ L1 L2, cand_idxs = L1 ++ b :: L2 ∧
        (∀ j ∈ remaining,
          mmrScore q vecs lam selected j = mmrScore q vecs lam selected b →
          j = b ∨ j ∈ L2) := by
  obtain ⟨b, l1, l2, hbc, hdec, hmax, hpre, hsuf⟩ :=
    bestCand_spec (mmrScore q vecs lam selected) remaining hne
      (fun j _ => mmrScore_gt q vecs lam h0 h1 selected j)
  have hbmem : b ∈ remaining := by
    rw [hdec]; exact List.mem_append_right _ (List.mem_cons_self b l2)
  refine ⟨b, hbc, mmrLoop_step _ k selected remaining b hne hk hbc hbmem, hmax, ?_⟩
  rw [hdec] at hsub
  rw [List.append_sublist_iff] at hsub
  obtain ⟨r1, r2, hr, _, hsub2⟩ := hsub
  rw [List.cons_sublist_iff] at hsub2
  obtain ⟨s1, s2, hs, hbmem2, hsub3⟩ := hsub2
  obtain ⟨t1, t2, ht⟩ := List.append_of_mem hbmem2
  refine ⟨r1 ++ t1, t2 ++ s2, by rw [hr, hs, ht]; simp, ?_⟩
  intro j hj heq
  rw [hdec] at hj
  rcases List.mem_append.mp hj with hj1 | hj2
  · exact absurd heq (ne_of_lt (hpre j hj1))
  · rcases List.mem_cons.mp hj2 with rfl | hj3
    · exact Or.inl rfl
    · exact Or.inr (List.mem_append_right t2 (hsub3.subset hj3))

/-- Witness for `mmr_select_tie_break`: two identical unit vectors (an
exact tie on relevance at the first pick), `remaining = cand_idxs = [0, 1]`,
`k = 1`, `lambda = 0`. -/
theorem mmr_select_tie_break_witness :
    ((0 : ℝ) ≤ 0 ∧ (0 : ℝ) ≤ 1 ∧ ([0, 1] : List Nat).Sublist [0, 1] ∧
      ([0, 1] : List Nat) ≠ [] ∧ ([] : List Nat).length < 1) ∧
    (∃ b, bestCand (mmrScore [(1 : ℝ)] [[(1 : ℝ)], [(1 : ℝ)]] 0 []) [0, 1] = some b ∧
      mmrLoop (mmrScore [(1 : ℝ)] [[(1 : ℝ)], [(1 : ℝ)]] 0) 1 [] [0, 1] =
        mmrLoop (mmrScore [(1 : ℝ)] [[(1 : ℝ)], [(1 : ℝ)]] 0) 1 ([] ++ [b])
          (([0, 1] : List Nat).erase b) ∧
      (∀ j ∈ ([0, 1] : List Nat),
        mmrScore [(1 : ℝ)] [[(1 : ℝ)], [(1 : ℝ)]] 0 [] j ≤
          mmrScore [(1 : ℝ)] [[(1 : ℝ)], [(1 : ℝ)]] 0 [] b) ∧
      ∃ L1 L2, ([0, 1] : List Nat) = L1 ++ b :: L2 ∧
        (∀ j ∈ ([0, 1] : List Nat),
          mmrScore [(1 : ℝ)] [[(1 : ℝ)], [(1 : ℝ)]] 0 [] j =
            mmrScore [(1 : ℝ)] [[(1 : ℝ)], [(1 : ℝ)]] 0 [] b →
          j = b ∨ j ∈ L2)) :=
  ⟨⟨le_rfl, zero_le_one, List.Sublist.refl _, by decide, by decide⟩,
    mmr_select_tie_break [(1 : ℝ)] [[(1 : ℝ)], [(1 : ℝ)]] 0 [0, 1] [] [0, 1] 1
      le_rfl zero_le_one (List.Sublist.refl _) (by decide) (by decide)⟩

/-! ### Retriever.search: src/retriever/search.py -/

/-- Python's `round(x)` (banker's rounding, round-half-to-even). -/
noncomputable def roundHalfEven (x : ℝ) : ℤ :=
  if x - ⌊x⌋ < 1 / 2 then ⌊x⌋
  else if 1 / 2 < x - ⌊x⌋ then ⌊x⌋ + 1
  else if Even ⌊x⌋ then ⌊x⌋ else ⌊x⌋ + 1

/-- `round(float(score), 4)` of the source, over exact reals. -/
noncomputable def pyRound4 (x : ℝ) : ℝ := (roundHalfEven (x * 10000) : ℝ) / 10000

/-- The metadata bag of a vector-store candidate as read by
`Retriever.search` through `meta.get(key, default)`; an absent key is
`none`. -/
structure RMeta where
  title : Option String := none
  url : Option String := none
  source : Option String := none
  date_published : Option String := none
  chunk_index : Option Int := none
  length : Option Nat := none

instance : Inhabited RMeta := ⟨{}⟩

/-- One entry of the `sources` list built by `Retriever.search`. -/
structure SearchSource where
  title : String
  url : String
  source : String
  date_published : String
  chunk_index : Int
  length : Nat
  score : ℝ

/-- The return value of `Retriever.search`; `raw` is
`(n_initial, returned, selected)` and `none` for the empty-candidate
early return (`"raw": {}`). -/
structure SearchResult where
  contexts : String
  sources : List SearchSource
  raw : Option (Nat × Nat × Nat)

/-- `Retriever.search`, taken after its two collaborator calls: `q_emb` is
the query embedding returned by `embed_query`, and
`docs / metas / dists / embs` are the parallel arrays returned by the
Chroma query for `n_results = max(top_k * 3, top_k)`.  The final
`picked.sort(key=score, reverse=True)` is Python's stable sort, modelled
by `mergeSort` with the (total, transitive) comparator `score y ≤ score x`. -/
noncomputable def search (q_emb : List ℝ) (docs : List String) (metas : List RMeta)
    (dists : List ℝ) (embs : List (List ℝ)) (top_k : Nat) (use_mmr : Bool)
    (mmr_lambda : ℝ) : SearchResult :=
  let n_initial := max (top_k * 3) top_k
  if docs.isEmpty then ⟨"", [], none⟩
  else
    let idxs := List.range docs.length
    let sel := if use_mmr ∧ top_k < docs.length then
        _mmr_select q_emb embs idxs top_k mmr_lambda
      else idxs.take top_k
    let picked := sel.map (fun i => (docs.getD i "", metas.getD i default, 1 - dists.getD i 0))
    let sorted := picked.mergeSort (fun x y => decide (y.2.2 ≤ x.2.2))
    let blocks := sorted.map (fun td =>
      "[" ++ (td.2.1.title).getD "" ++ "](" ++ (td.2.1.url).getD "" ++ ")\n" ++
        (if 800 < td.1.length then td.1.take 800 ++ "..." else td.1) ++ "\n---")
    let sources := sorted.map (fun td =>
      ({ title := (td.2.1.title).getD "", url := (td.2.1.url).getD "",
         source := (td.2.1.source).getD "",
         date_published := (td.2.1.date_published).getD "",
         chunk_index := (td.2.1.chunk_index).getD (-1),
         length := (td.2.1.length).getD td.1.length,
         score := pyRound4 td.2.2 } : SearchSource))
    ⟨String.intercalate "\n" blocks, sources, some (n_initial, docs.length, sorted.length)⟩

lemma roundHalfEven_lb (x : ℝ) : ⌊x⌋ ≤ roundHalfEven x := by
  unfold roundHalfEven
  split_ifs <;> omega

lemma roundHalfEven_ub (x : ℝ) : roundHalfEven x ≤ ⌊x⌋ + 1 := by
  unfold roundHalfEven
  split_ifs <;> omega

lemma roundHalfEven_mono {x y : ℝ} (h : x ≤ y) : roundHalfEven x ≤ roundHalfEven y := by
  have hfl : ⌊x⌋ ≤ ⌊y⌋ := Int.floor_le_floor h
  rcases lt_or_eq_of_le hfl with hlt | hfe
  · have h1 := roundHalfEven_ub x
    have h2 := roundHalfEven_lb y
    omega
  · unfold roundHalfEven
    rw [hfe]
    split_ifs <;> first | omega | linarith

lemma pyRound4_mono {x y : ℝ} (h : x ≤ y) : pyRound4 x ≤ pyRound4 y := by
  unfold pyRound4
  have h1 : roundHalfEven (x * 10000) ≤ roundHalfEven (y * 10000) :=
    roundHalfEven_mono (by linarith)
  have h2 : ((roundHalfEven (x * 10000) : ℤ) : ℝ) ≤ ((roundHalfEven (y * 10000) : ℤ) : ℝ) :=
    Int.cast_le.mpr h1
  have hc : (0 : ℝ) < 10000 := by norm_num
  exact (div_le_div_iff_of_pos_right hc).mpr h2

/-- C9: in every `Retriever.search` result, the similarity scores attached
to the returned sources (each `1 - distance`, rounded to 4 decimals) are
non-increasing across the sequence, because the final selection is
re-sorted by descending score before packaging. -/
theorem search_scores_monotone (q_emb : List ℝ) (docs : List String) (metas : List RMeta)
    (dists : List ℝ) (embs : List (List ℝ)) (top_k : Nat) (use_mmr : Bool)
    (mmr_lambda : ℝ) :
    ((search q_emb docs metas dists embs top_k use_mmr mmr_lambda).sources.map
      (fun s => s.score)).Pairwise (fun a b => b ≤ a) := by
  rw [search]
  by_cases hd : docs.isEmpty
  · rw [if_pos hd]
    simp
  · rw [if_neg hd]
    simp only [List.map_map]
    apply List.Pairwise.map
      (R := fun x y : String × RMeta × ℝ => decide (y.2.2 ≤ x.2.2) = true)
    · intro a b hab
      simp only [Function.comp]
      rw [decide_eq_true_iff] at hab
      exact pyRound4_mono hab
    · exact List.sorted_mergeSort
        (fun a b c h1 h2 => by
          rw [decide_eq_true_iff] at *
          exact le_trans h2 h1)
        (fun a b => by
          rcases le_total a.2.2 b.2.2 with h | h <;> simp [h])
        _

/-! ### Indexer: src/vector_store/indexer.py -/

/-- A record upserted into the Chroma collection (stable id plus the
metadata bag of `ChromaStore.upsert_chunks`). -/
structure ChunkRecord where
  id : String
  text : List Char
  embedding : List ℝ
  doc_id : Nat
  url : String
  title : String
  source : String
  date_published : String
  chunk_index : Nat
  length : Nat

/-- `ChromaStore.upsert_chunks`: builds the ids `doc_<id>_chunk_<i>` and
metadata bags and returns `0` for an empty chunk list, else
`len(chunks)`.  The collection mutation is the external collaborator's
side effect; the records it receives are returned for inspection. -/
def upsert_chunks (doc_id : Nat) (url title source date_published : String)
    (chunks : List (List Char)) (embeddings : List (List ℝ)) :
    List ChunkRecord × Nat :=
  if chunks.isEmpty then ([], 0)
  else
    ((List.range chunks.length).map (fun i =>
      ({ id := "doc_" ++ toString doc_id ++ "_chunk_" ++ toString i,
         text := chunks.getD i [],
         embedding := embeddings.getD i [],
         doc_id := doc_id, url := url, title := title, source := source,
         date_published := date_published, chunk_index := i,
         length := (chunks.getD i []).length } : ChunkRecord)),
      chunks.length)

/-- A document row as returned by `SqlStore.fetch_all` (the columns the
indexer reads). -/
structure IndexDoc where
  id : Nat
  url : String
  title : String
  source : String
  date_published : String
  raw_text : List Char
  lang : String

/-- The dict returned by `Indexer.index_recent`. -/
structure IndexReport where
  docs_processed : Nat
  chunks_total : Nat
  embedded_total : Nat
  upserted_total : Nat
deriving DecidableEq

/-- `Indexer._chunk_doc`: chunk, then drop chunks shorter than
`min_chunk_chars`. -/
def _chunk_doc (maxC overlap minChunk : Nat) (text : List Char) :
    Option (List (List Char)) :=
  (simple_chunk text maxC overlap).map
    (fun cs => cs.filter (fun c => decide (minChunk ≤ c.length)))

/-- `chunks[i:i+batch_size]` slices of the batching loop; the fuel is the
list length, sufficient for any positive batch size. -/
def batchesF (bs : Nat) : Nat → List (List Char) → List (List (List Char))
  | _, [] => []
  | 0, _ => []
  | fuel + 1, l => l.take bs :: batchesF bs fuel (l.drop bs)

/-- `range(0, len(chunks), batch_size)` batching.  `batch_size = 0` would
raise `ValueError` in Python (`range` step must not be zero); the model
returns no batches there and the theorems assume a positive batch size. -/
def batches (bs : Nat) (l : List (List Char)) : List (List (List Char)) :=
  if bs = 0 then [] else batchesF bs l.length l

/-- The `for d in docs` body of `Indexer.index_recent`, threading the three
running totals.  `embed` is the `solar.embed_passage` collaborator (one
call per batch, results concatenated in order).  The embedding-count
mismatch raises `RuntimeError` — there is no try/except around the loop, so
the error propagates out of `index_recent` (modelled by `Except.error`);
`none` models a diverging chunker call. -/
def indexLoop (embed : List (List Char) → List (List ℝ))
    (maxC overlap minChunk bs docsProcessed : Nat) :
    List IndexDoc → Nat → Nat → Nat → Option (Except String IndexReport)
  | [], tc, te, tu => some (Except.ok ⟨docsProcessed, tc, te, tu⟩)
  | d :: rest, tc, te, tu =>
    match _chunk_doc maxC overlap minChunk d.raw_text with
    | none => none
    | some chunks =>
      if chunks.isEmpty then indexLoop embed maxC overlap minChunk bs docsProcessed rest tc te tu
      else if (((batches bs chunks).map embed).flatten).length ≠ chunks.length then
        some (Except.error "임베딩 개수와 청크 개수가 일치하지 않습니다.")
      else
        indexLoop embed maxC overlap minChunk bs docsProcessed rest
          (tc + chunks.length) (te + (((batches bs chunks).map embed).flatten).length)
          (tu + (upsert_chunks d.id d.url d.title d.source d.date_published
            chunks (((batches bs chunks).map embed).flatten)).2)

/-- `Indexer.index_recent`, taken after `fetch_all`: processes the fetched
document rows in order and accumulates the report. -/
def index_recent (docs : List IndexDoc) (embed : List (List Char) → List (List ℝ))
    (maxC overlap minChunk bs : Nat) : Option (Except String IndexReport) :=
  indexLoop embed maxC overlap minChunk bs docs.length docs 0 0 0

/-- C4 (code bug): an embedding-count mismatch on the first document aborts
the whole `index_recent` run — the `raise RuntimeError` is not caught
anywhere in the loop, so the second document is never processed and no
report is returned, contrary to the claimed per-document failure
isolation.  With a correct embedder the very same two documents index
fine. -/
theorem index_recent_mismatch_aborts :
    index_recent
        [⟨1, "u1", "t1", "s1", "d1", "aaaaa".data, "en"⟩,
         ⟨2, "u2", "t2", "s2", "d2", "bbbbb".data, "en"⟩]
        (fun _ => []) 10 0 1 1 =
      some (Except.error "임베딩 개수와 청크 개수가 일치하지 않습니다.") ∧
    index_recent
        [⟨1, "u1", "t1", "s1", "d1", "aaaaa".data, "en"⟩,
         ⟨2, "u2", "t2", "s2", "d2", "bbbbb".data, "en"⟩]
        (fun ts => ts.map (fun _ => ([] : List ℝ))) 10 0 1 1 =
      some (Except.ok ⟨2, 2, 2, 2⟩) := by
  refine ⟨rfl, rfl⟩

lemma indexLoop_totals (embed : List (List Char) → List (List ℝ))
    (maxC overlap minChunk bs dp : Nat) :
    ∀ (docs : List IndexDoc) (tc te tu : Nat) (r : IndexReport),
      tc = te → te = tu →
      indexLoop embed maxC overlap minChunk bs dp docs tc te tu = some (Except.ok r) →
      r.chunks_total = r.embedded_total ∧ r.embedded_total = r.upserted_total := by
  intro docs
  induction docs with
  | nil =>
    intro tc te tu r h1 h2 h
    rw [indexLoop] at h
    have : (⟨dp, tc, te, tu⟩ : IndexReport) = r := by
      have := Option.some.inj h
      exact Except.ok.inj this
    subst this
    exact ⟨h1, h2⟩
  | cons d rest ih =>
    intro tc te tu r h1 h2 h
    rw [indexLoop] at h
    cases hc : _chunk_doc maxC overlap minChunk d.raw_text with
    | none => rw [hc] at h; simp at h
    | some chunks =>
      simp only [hc] at h
      by_cases he : chunks.isEmpty
      · rw [if_pos he] at h
        exact ih tc te tu r h1 h2 h
      · rw [if_neg he] at h
        by_cases hm : (((batches bs chunks).map embed).flatten).length ≠ chunks.length
        · rw [if_pos hm] at h
          simp at h
        · rw [if_neg hm] at h
          push_neg at hm
          have hu : (upsert_chunks d.id d.url d.title d.source d.date_published chunks
              (((batches bs chunks).map embed).flatten)).2 = chunks.length := by
            rw [upsert_chunks, if_neg he]
          rw [hu] at h
          exact ih _ _ _ r (by omega) (by omega) h

/-- C10: whenever `index_recent` returns a report without raising, its
`chunks_total`, `embedded_total` and `upserted_total` are all equal: each
document either passes the count check and contributes `len(chunks)` to
all three, or yields no chunks surviving the minimum-length filter and
contributes nothing. -/
theorem index_recent_totals (docs : List IndexDoc)
    (embed : List (List Char) → List (List ℝ)) (maxC overlap minChunk bs : Nat)
    (r : IndexReport)
    (h : index_recent docs embed maxC overlap minChunk bs = some (Except.ok r)) :
    r.chunks_total = r.embedded_total ∧ r.embedded_total = r.upserted_total :=
  indexLoop_totals embed maxC overlap minChunk bs docs.length docs 0 0 0 r rfl rfl h

/-- Witness for `index_recent_totals`: one five-character document, batch
size 1, an embedder returning one vector per text. -/
theorem index_recent_totals_witness :
    (index_recent [⟨1, "u", "t", "s", "d", "aaaaa".data, "en"⟩]
        (fun ts => ts.map (fun _ => ([] : List ℝ))) 10 0 1 1 =
      some (Except.ok ⟨1, 1, 1, 1⟩)) ∧
    ((⟨1, 1, 1, 1⟩ : IndexReport).chunks_total =
        (⟨1, 1, 1, 1⟩ : IndexReport).embedded_total ∧
      (⟨1, 1, 1, 1⟩ : IndexReport).embedded_total =
        (⟨1, 1, 1, 1⟩ : IndexReport).upserted_total) :=
  ⟨rfl,
    index_recent_totals [⟨1, "u", "t", "s", "d", "aaaaa".data, "en"⟩]
      (fun ts => ts.map (fun _ => ([] : List ℝ))) 10 0 1 1 ⟨1, 1, 1, 1⟩ rfl⟩

end NewsRag
